import Mathlib

/-!
Verification development for corepack's `src/sources/specUtils.ts`.

JavaScript strings are modelled as `List Char`; the JS string primitives
used by the source (`indexOf`, `lastIndexOf`, `slice`, `startsWith`,
`toUpperCase`) are given their JS semantics on lists.  Fallible code is
modelled with `Except`.  External collaborators (the `semver` npm package,
the WHATWG `URL.canParse` check and node's `util.parseEnv`) are passed in
as explicit function parameters, mirroring the boundary drawn in the spec.
-/

namespace Corepack

/-- Views of JavaScript strings as lists of characters. -/
abbrev JStr := List Char

/-- Converts a Lean string literal into the character-list model. -/
def strL (s : String) : JStr := s.data

/-- Path segments; a directory path is the list of its segments from the
root (the filesystem root is `[]`).  Only absolute POSIX-style paths are
modelled, matching the paths handed to `loadSpec` by the CLI. -/
abbrev Seg := JStr

/-- A directory (or file) path as its list of segments. -/
abbrev Path := List Seg

/-- JS `String.prototype.toUpperCase` restricted to the ASCII names the
source applies it to. -/
def jsToUpper (s : JStr) : JStr := s.map Char.toUpper

/-- First index at which `pat` occurs as a contiguous substring of `s`
(JS `String.prototype.indexOf`, with `none` for `-1`). -/
def findSub (pat : List Char) : List Char → Option Nat
  | [] => if pat.isPrefixOf ([] : List Char) then some 0 else none
  | c :: t => if pat.isPrefixOf (c :: t) then some 0 else (findSub pat t).map (· + 1)

/-- Last index at which `pat` occurs as a contiguous substring of `s`
(JS `String.prototype.lastIndexOf`, with `none` for `-1`). -/
def lastSub (pat : List Char) : List Char → Option Nat
  | [] => if pat.isPrefixOf ([] : List Char) then some 0 else none
  | c :: t =>
    match lastSub pat t with
    | some i => some (i + 1)
    | none => if pat.isPrefixOf (c :: t) then some 0 else none

/-- JS `s.indexOf(pat, start)`. -/
def findSubFrom (pat s : List Char) (start : Nat) : Option Nat :=
  (findSub pat (s.drop start)).map (· + start)

/-- Whether `pat` occurs in `s` starting at position `i`. -/
def occursAtB (pat s : List Char) (i : Nat) : Bool := pat.isPrefixOf (s.drop i)

/-- A version/range descriptor, from `types.ts` (`Descriptor`). -/
structure Descriptor where
  name : JStr
  range : JStr
deriving DecidableEq

/-- The user-facing and internal failures raised by `specUtils.ts`.  Each
constructor corresponds to one `throw` site; error-message text is not
modelled.  `invalidManifest` records the directory whose `package.json`
failed to parse as a JSON object. -/
inductive SpecError where
  | invalidSpecType
  | missingVersion
  | unsupportedManager
  | invalidVersion
  | illegalCustomURL
  | multiplePackageManagers
  | missingVersionConstraint
  | overrideConstraintMismatch
  | declarationNameMismatch
  | declarationVersionMismatch
  | invalidManifest (dir : Path)
  | fsError
  | internalAssertion
deriving DecidableEq

/-- Modelled from the spec: `isSupportedPackageManager` lives in
`types.ts`, which is not part of the sources; the spec describes a fixed
closed set of supported package-manager identifiers, which throughout the
repository are npm, pnpm and yarn. -/
def isSupportedPackageManager (n : JStr) : Bool :=
  n = strL ("npm") || n = strL ("pnpm") || n = strL ("yarn")

/-- A process-environment / merged-environment object: ordered key-value
pairs where a later binding shadows an earlier one (JS object spread). -/
abbrev Env := List (JStr × JStr)

/-- JS property lookup on an environment object (`env[key]`): the most
recently written binding wins. -/
def envLookup (e : Env) (k : JStr) : Option JStr :=
  (e.reverse.find? (fun p => p.1 = k)).map (fun p => p.2)

/-- JS object spread `\x7b...a, ...b\x7d`: bindings of `b` shadow `a`. -/
def mergeEnv (a b : Env) : Env := a ++ b

/-- JS truthiness of an optional string: `undefined` and the empty string
are falsy. -/
def truthy : Option JStr → Bool
  | none => false
  | some s => !s.isEmpty

/-- External collaborators of `specUtils.ts`, passed explicitly: the
WHATWG `URL.canParse` predicate, the npm `semver` package's `valid` and
`satisfies`, and node's `util.parseEnv`. -/
structure ExternalDeps where
  canParseURL : JStr → Bool
  semverValid : JStr → Bool
  semverSatisfies : JStr → JStr → Bool
  parseEnv : JStr → Env

/-- Options object of `parseSpec` (`enforceExactVersion` defaults to
`true` in the source). -/
structure ParseOpts where
  enforceExactVersion : Bool := true

/-- A raw `packageManager` value as seen by `parseSpec`: the source first
checks `typeof raw === 'string'`. -/
inductive RawValue where
  | str (s : JStr)
  | nonString

/-- The environment key whose exact value `"1"` enables custom URLs for
supported managers. -/
def unsafeURLKey : JStr := strL ("COREPACK_ENABLE_UNSAFE_CUSTOM_URLS")

/-- Shallow embedding of `parseSpec` (`specUtils.ts` lines 17-56): split
the raw spec at the first `@`; a missing or trailing `@` yields the `*`
range (or an error when an exact version is enforced); a URL range is
rejected for supported managers unless the opt-in variable is exactly
`"1"`. -/
def parseSpec (deps : ExternalDeps) (procEnv : Env) (raw : RawValue)
    (opts : ParseOpts) : Except SpecError Descriptor :=
  match raw with
  | .nonString => .error .invalidSpecType
  | .str s =>
    match findSub (strL ("@")) s with
    | none =>
      if opts.enforceExactVersion then .error .missingVersion
      else if isSupportedPackageManager s then .ok ⟨s, strL ("*")⟩
      else .error .unsupportedManager
    | some atIndex =>
      if atIndex = s.length - 1 then
        if opts.enforceExactVersion then .error .missingVersion
        else if isSupportedPackageManager s.dropLast then .ok ⟨s.dropLast, strL ("*")⟩
        else .error .unsupportedManager
      else
        let name := s.take atIndex
        let range := s.drop (atIndex + 1)
        if !deps.canParseURL range then
          if opts.enforceExactVersion && !deps.semverValid range then
            .error .invalidVersion
          else if !isSupportedPackageManager name then
            .error .unsupportedManager
          else
            .ok ⟨name, range⟩
        else if isSupportedPackageManager name
            ∧ envLookup procEnv unsafeURLKey ≠ some (strL ("1")) then
          .error .illegalCustomURL
        else
          .ok ⟨name, range⟩

deriving instance DecidableEq for Except

/-- The `devEngines.packageManager` value of a manifest: a single
structured declaration, or an array (declaring several managers, which
the source rejects). -/
inductive DevEnginesPM where
  | single (name version : JStr)
  | multiple
deriving DecidableEq

/-- The subset of a manifest's JSON content inspected by the source
(`CorepackPackageJSON`): the legacy string field and the structured
`devEngines.packageManager` field (collapsed over the intermediate
`devEngines` object, whose only inspected member it is).  A structured
declaration whose `version` member is missing is modelled with the empty
string, which the source's falsiness check treats identically. -/
structure CorepackPackageJSON where
  packageManager : Option JStr := none
  devEnginesPackageManager : Option DevEnginesPM := none
deriving DecidableEq

/-- The override key for a manager name: `COREPACK_DEV_ENGINES_` followed
by the upper-cased name (`specUtils.ts` line 80). -/
def devEnginesKey (nm : JStr) : JStr := strL ("COREPACK_DEV_ENGINES_") ++ jsToUpper nm

/-- Shallow embedding of `parsePackageJSON` (`specUtils.ts` lines 67-106):
with a structured declaration, a truthy matching override-key value must
satisfy the constraint and then supplies the version; otherwise a truthy
legacy field must agree in name and satisfy the constraint and is returned
verbatim; otherwise `name@version` is synthesized.  Without a structured
declaration the legacy field is returned as-is. -/
def parsePackageJSON (deps : ExternalDeps) (m : CorepackPackageJSON)
    (localEnv : Env) : Except SpecError (Option JStr) :=
  match m.devEnginesPackageManager with
  | some .multiple => .error .multiplePackageManagers
  | some (.single nm ver) =>
    if ver.isEmpty then .error .missingVersionConstraint
    else
      let localEnvVersion := envLookup localEnv (devEnginesKey nm)
      if truthy localEnvVersion then
        let lv := localEnvVersion.getD []
        if !deps.semverSatisfies lv ver then .error .overrideConstraintMismatch
        else .ok (some (nm ++ '@' :: lv))
      else
        match m.packageManager with
        | some pm =>
          if !pm.isEmpty then
            if !(nm ++ [('@' : Char)]).isPrefixOf pm then
              .error .declarationNameMismatch
            else if !deps.semverSatisfies (pm.drop (nm.length + 1)) ver then
              .error .declarationVersionMismatch
            else .ok (some pm)
          else .ok (some (nm ++ '@' :: ver))
        | none => .ok (some (nm ++ '@' :: ver))
  | none => .ok m.packageManager

/-! Sample instantiations of the external collaborators, used to evaluate
the embedding on concrete inputs.  Each agrees with the real library
(WHATWG URL, npm semver, node `util.parseEnv`) on every concrete string it
is applied to in this file. -/

/-- Splits at the first occurrence of `c`: the part before it, and the
part after it when it occurs. -/
def splitFirst (c : Char) : JStr → JStr × Option JStr
  | [] => ([], none)
  | x :: t =>
    if x = c then ([], some t)
    else
      let r := splitFirst c t
      (x :: r.1, r.2)

/-- Splits on every occurrence of `c` (helper, with an accumulator). -/
def splitAllAux (c : Char) : JStr → JStr → List JStr
  | [], acc => [acc.reverse]
  | x :: t, acc =>
    if x = c then acc.reverse :: splitAllAux c t [] else splitAllAux c t (x :: acc)

/-- Splits a string on every occurrence of `c`. -/
def splitAll (c : Char) (s : JStr) : List JStr := splitAllAux c s []

/-- Nonempty and all decimal digits. -/
def isDigits (s : JStr) : Bool := !s.isEmpty && s.all Char.isDigit

/-- Sample `semver.valid`: accepts `A.B.C` cores with numeric components,
ignoring any pre-release or build suffix.  Agrees with npm semver on the
version strings appearing in this file (for example it accepts `2.1.0`
and rejects the range `2.x`). -/
def simpleSemverValid (s : JStr) : Bool :=
  match splitAll '.' (splitFirst '-' (splitFirst '+' s).1).1 with
  | [a, b, c] => isDigits a && isDigits b && isDigits c
  | _ => false

/-- Sample `semver.satisfies`: exact match, or an `N.x` range matched by
prefix.  Agrees with npm semver on the pairs used in this file. -/
def simpleSatisfies (v r : JStr) : Bool :=
  v = r || (r.reverse.take 2 = strL ("x.") && (r.dropLast).isPrefixOf v)

/-- Sample `URL.canParse`: an absolute URL requires a scheme followed by a
colon, so strings without a colon are never URLs.  On the inputs used in
this file this agrees with the WHATWG parser. -/
def looksLikeURL (s : JStr) : Bool := s.contains ':'

/-- Sample node `util.parseEnv` line handling: `KEY=value`. -/
def parseEnvLine (line : JStr) : Option (JStr × JStr) :=
  match splitFirst '=' line with
  | (k, some v) => if k.isEmpty then none else some (k, v)
  | (_, none) => none

/-- Sample node `util.parseEnv`: split into lines, keep `KEY=value` ones.
Agrees with node on the plain env files used in this file. -/
def simpleParseEnv (s : JStr) : Env :=
  (splitAll '\n' s).filterMap parseEnvLine

/-- The sample external-collaborator bundle. -/
def sampleDeps : ExternalDeps :=
  { canParseURL := looksLikeURL
    semverValid := simpleSemverValid
    semverSatisfies := simpleSatisfies
    parseEnv := simpleParseEnv }

/-! The resolver's filesystem model and the upward walk. -/

/-- Modelled from the spec: one field of the manifest document as seen by
the persistence writer (`nodeUtils.readPackageJson` is not under the
sources).  The `packageManager` field is kept distinguishably; every
other field is an opaque pre-rendered `"key": value` fragment. -/
inductive JField where
  | pm (value : JStr)
  | other (rendered : JStr)
deriving DecidableEq

/-- Modelled from the spec: the writer's view of the manifest text as
produced by `nodeUtils.readPackageJson` — the object's fields in order,
the detected indentation, and whether the file's dominant line-ending
convention is CRLF (consumed later by the line-ending normalization). -/
structure PJsonDoc where
  fields : List JField
  indent : JStr
  crlf : Bool
deriving DecidableEq

/-- The legacy `packageManager` member of the writer's document view. -/
def docGetPm (d : PJsonDoc) : Option JStr :=
  (d.fields.filterMap (fun f => match f with | .pm v => some v | .other _ => none)).head?

/-- Whether a field is the legacy `packageManager` member. -/
def isPmField : JField → Bool
  | .pm _ => true
  | .other _ => false

/-- JS assignment `data.packageManager = v`: replaces the member in place
when present, appends it otherwise. -/
def docSetPm (d : PJsonDoc) (v : JStr) : PJsonDoc :=
  if d.fields.any isPmField then
    { d with fields := d.fields.map (fun f => match f with | .pm _ => .pm v | .other r => .other r) }
  else
    { d with fields := d.fields ++ [.pm v] }

/-- Renders one field at the given indentation. -/
def renderField (indent : JStr) : JField → JStr
  | .pm v => indent ++ strL ("\x22packageManager\x22: \x22") ++ v ++ strL ("\x22")
  | .other r => indent ++ r

/-- Joins rendered fields with a separator. -/
def joinSep (sep : JStr) : List JStr → JStr
  | [] => []
  | [x] => x
  | x :: y :: xs => x ++ sep ++ joinSep sep (y :: xs)

/-- Modelled from the spec: `JSON.stringify(data, null, indent)` — the
object rendered with the indentation preserved from the original text
(the writer appends the trailing newline separately, as the source
does). -/
def renderPJson (d : PJsonDoc) : JStr :=
  strL ("\x7b\n") ++ joinSep (strL (",\n")) (d.fields.map (renderField d.indent)) ++ strL ("\n\x7d")

/-- The line ending recorded on the writer's document view. -/
def docEol (d : PJsonDoc) : JStr := if d.crlf then strL ("\r\n") else strL ("\n")

/-- Result of reading and JSON-parsing a directory's `package.json`
(`specUtils.ts` lines 171-185 as one composite): absent (ENOENT, the
directory is skipped), another I/O error (propagated), content that does
not parse to a JSON object — syntax errors, `null` and non-objects all
raise the invalid-manifest error — or a parsed object, recorded both as
the resolver's inspected subset and as the writer's document view. -/
inductive ManifestRead where
  | absent
  | ioError
  | badJson
  | parsed (m : CorepackPackageJSON) (doc : PJsonDoc)

/-- Result of reading a file as raw text (used for the env override
file). -/
inductive EnvRead where
  | absent
  | ioError
  | file (content : JStr)
deriving DecidableEq

/-- The filesystem as seen by the resolver: for each directory its
`package.json` outcome, and for each directory and file name the raw text
of that file. -/
structure Fs where
  manifestAt : Path → ManifestRead
  fileAt : Path → Seg → EnvRead

/-- The env override file name: `loadSpec` (line 188) joins exactly this
constant onto the candidate directory. -/
def envFileName : Seg := strL (".corepack.env")

/-- A segment acceptable as the final group of `nodeModulesRegExp`
(`[^@\x5c\x5c/][^\x5c\x5c/]*`): nonempty, not starting with `@`. -/
def segIsPkg (x : Seg) : Bool :=
  match x with
  | [] => false
  | c :: _ => if c = '@' then false else true

/-- A segment matching the scope group (`@[^\x5c\x5c/]*`). -/
def segIsScope (y : Seg) : Bool :=
  match y with
  | [] => false
  | c :: _ => if c = '@' then true else false

/-- The `node_modules` segment. -/
def nmSeg : Seg := strL ("node_modules")

/-- The `nodeModulesRegExp` test (`specUtils.ts` line 15) on an absolute
segment path: matches exactly the dependency package-root shapes
`.../node_modules/<pkg>` and `.../node_modules/@<scope>/<pkg>`, anchored
at the end of the path. -/
def nodeModulesMatch (p : Path) : Bool :=
  match p.reverse with
  | x :: y :: rest =>
    (if y = nmSeg then segIsPkg x else false) ||
    (match rest with
     | z :: _ => if z = nmSeg then segIsScope y && segIsPkg x else false
     | [] => false)
  | _ => false

/-- The loop state of `loadSpec`: the most recently adopted manifest with
its directory and merged local environment, plus whether the env file was
actually read.  In the source that last bit is carried by object
identity — `selection.localEnv !== process.env` holds exactly when the
spread creating a fresh merged object ran, i.e. when the file read
succeeded. -/
structure Selection where
  m : CorepackPackageJSON
  doc : PJsonDoc
  dir : Path
  localEnv : Env
  envFresh : Bool

/-- One iteration body of the walk for a candidate directory (lines
166-199): skip node-modules matches and missing manifests (the JS
`continue`, returned as `none`), raise I/O and invalid-manifest errors,
and otherwise adopt the manifest together with this directory's merged
local environment. -/
def visitDir (deps : ExternalDeps) (procEnv : Env) (fs : Fs) (cwd : Path) :
    Except SpecError (Option Selection) :=
  if nodeModulesMatch cwd then .ok none
  else
    match fs.manifestAt cwd with
    | .absent => .ok none
    | .ioError => .error .fsError
    | .badJson => .error (.invalidManifest cwd)
    | .parsed m doc =>
      match fs.fileAt cwd envFileName with
      | .ioError => .error .fsError
      | .absent => .ok (some ⟨m, doc, cwd, procEnv, false⟩)
      | .file content =>
        .ok (some ⟨m, doc, cwd, mergeEnv procEnv (deps.parseEnv content), true⟩)

/-- JS truthiness of `selection.data.packageManager`, guarding the loop
condition `!selection || !selection.data.packageManager`. -/
def selHasPM : Option Selection → Bool
  | none => false
  | some s => truthy s.m.packageManager

/-- The upward walk of `loadSpec` (lines 162-200), with the candidate
directory encoded by its reversed segment list so that the
`path.dirname` step is the structural tail.  The legacy-field guard is
re-checked before each iteration, and the walk stops after the root has
been visited (`path.dirname` reaching its fixed point). -/
def loadSpecLoop (deps : ExternalDeps) (procEnv : Env) (fs : Fs) :
    List Seg → Option Selection → Except SpecError (Option Selection)
  | revCwd, sel =>
    if selHasPM sel then .ok sel
    else
      match visitDir deps procEnv fs revCwd.reverse with
      | .error e => .error e
      | .ok step =>
        match revCwd with
        | [] => .ok (if step.isSome then step else sel)
        | _ :: t => loadSpecLoop deps procEnv fs t (if step.isSome then step else sel)

/-- `LoadSpecResult` (lines 145-149): the outcome tag, the adopted
manifest path, and for `Found` the parsed descriptor together with the
optional env file path. -/
inductive LoadSpecResult where
  | noProject (target : Path)
  | noSpec (target : Path)
  | found (target : Path) (spec : Descriptor) (envFilePath : Option Path)
deriving DecidableEq

/-- The manifest file name. -/
def pkgJsonSeg : Seg := strL ("package.json")

/-- Shallow embedding of `loadSpec` (lines 151-217): walk upward, then
extract the precedence-resolved raw spec and parse it (with the default
options, hence exactness enforced).  The env file path is surfaced
exactly when `selection.localEnv !== process.env`, i.e. when the env
file was read. -/
def loadSpec (deps : ExternalDeps) (procEnv : Env) (fs : Fs) (initialCwd : Path) :
    Except SpecError LoadSpecResult :=
  match loadSpecLoop deps procEnv fs initialCwd.reverse none with
  | .error e => .error e
  | .ok none => .ok (.noProject (initialCwd ++ [pkgJsonSeg]))
  | .ok (some sel) =>
    match parsePackageJSON deps sel.m sel.localEnv with
    | .error e => .error e
    | .ok none => .ok (.noSpec (sel.dir ++ [pkgJsonSeg]))
    | .ok (some rawPmSpec) =>
      match parseSpec deps procEnv (.str rawPmSpec) ⟨true⟩ with
      | .error e => .error e
      | .ok spec =>
        .ok (.found (sel.dir ++ [pkgJsonSeg]) spec
          (if sel.envFresh then some (sel.dir ++ [envFileName]) else none))

/-! The persistence writer. -/

/-- Counts occurrences of `pat` in `s` (at every position, overlapping
occurrences included). -/
def countSub (pat : List Char) : List Char → Nat
  | [] => 0
  | c :: t => (if pat.isPrefixOf (c :: t) then 1 else 0) + countSub pat t

/-- Modelled from the spec: the dominant line-ending convention of the
original file, for `nodeUtils.normalizeLineEndings` (not under the
sources): CRLF when CRLF endings outnumber bare-LF endings, LF
otherwise. -/
def dominantEol (s : JStr) : JStr :=
  let crlf := countSub (strL ("\r\n")) s
  let lone := (s.count '\n') - crlf
  if lone < crlf then strL ("\r\n") else strL ("\n")

/-- Replaces every line ending (`\r\n` or `\n`) of a string with `eol`. -/
def replaceEols (eol : List Char) : List Char → List Char
  | [] => []
  | [c] => if c = '\n' then eol else [c]
  | c :: d :: t =>
    if c = '\n' then eol ++ replaceEols eol (d :: t)
    else if c = '\r' && d = '\n' then eol ++ replaceEols eol t
    else c :: replaceEols eol (d :: t)

/-- Modelled from the spec: `nodeUtils.normalizeLineEndings(ref, s)`
rewrites every line ending of `s` to the dominant convention of `ref`. -/
def normalizeLineEndings (ref s : JStr) : JStr := replaceEols (dominantEol ref) s

/-- The `PreparedPackageManagerInfo` subset used by the writer: its
locator's name and exact reference. -/
structure Locator where
  name : JStr
  reference : JStr

/-- The writer's observable effect: the file written, the bytes written,
and the returned `previousPackageManager` value. -/
structure WriteResult where
  path : Path
  newContent : JStr
  previousPackageManager : JStr
deriving DecidableEq

/-- The env-file line patch of `setLocalPackageManager` (lines 118-127):
`index` is one past the last `\nKEY=` occurrence (0 when there is none),
the key must be present at `index` (else the internal assertion error),
and the new value is spliced between a fresh leading and trailing
newline, keeping the bytes before `index` and from the old line's
terminator onward.  Returns the new content and the old matched line. -/
def patchIndex (envKey content : JStr) : Nat :=
  match lastSub ('\n' :: (envKey ++ [('=' : Char)])) content with
  | some i => i + 1
  | none => 0

/-- The splice step of the env-file line patch, continuing
`patchIndex`. -/
def patchEnvContent (content envKey ref : JStr) : Except SpecError (JStr × JStr) :=
  let index : Nat := patchIndex envKey content
  if index = 0 ∧ (envKey ++ [('=' : Char)]).isPrefixOf content = false then
    .error .internalAssertion
  else
    let lineEnd := findSubFrom (strL ("\n")) content index
    let previous :=
      match lineEnd with
      | none => content.drop index
      | some j => (content.take j).drop index
    let tail :=
      match lineEnd with
      | none => ([] : JStr)
      | some j => content.drop j
    .ok (content.take index ++ '\n' :: (envKey ++ '=' :: ref) ++ '\n' :: tail, previous)

/-- The manifest branch of the writer (lines 129-134): read the target's
parsed view, take the previous legacy value (`?? 'unknown'`, a nullish
check, so an empty string is returned as such), set the field, re-render
with the preserved indentation plus a trailing newline, and normalize to
the original file's dominant line ending (carried on the document
view). -/
def writeManifest (fs : Fs) (target : Path) (info : Locator) :
    Except SpecError WriteResult :=
  match fs.manifestAt target.dropLast with
  | .parsed _ doc =>
    .ok ⟨target,
      replaceEols (docEol doc)
        (renderPJson (docSetPm doc (info.name ++ '@' :: info.reference)) ++ [('\n' : Char)]),
      (docGetPm doc).getD (strL ("unknown"))⟩
  | _ => .error .fsError

/-- Shallow embedding of `setLocalPackageManager` (lines 108-143):
re-resolve; when the lookup surfaced an env file path, patch that file's
key line; otherwise patch the legacy field of the target manifest (for
`NoProject` the content read is the empty string, whose
`readPackageJson` view is an empty object with default two-space
indentation). -/
def setLocalPackageManager (deps : ExternalDeps) (procEnv : Env) (fs : Fs)
    (cwd : Path) (info : Locator) : Except SpecError WriteResult :=
  match loadSpec deps procEnv fs cwd with
  | .error e => .error e
  | .ok (.found _ spec (some envPath)) =>
    (match fs.fileAt envPath.dropLast envFileName with
     | .file content =>
       (match patchEnvContent content (devEnginesKey spec.name) info.reference with
        | .error e => .error e
        | .ok (newContent, previous) =>
          .ok ⟨envPath, normalizeLineEndings content newContent, previous⟩)
     | _ => .error .fsError)
  | .ok (.found target _ none) => writeManifest fs target info
  | .ok (.noSpec target) => writeManifest fs target info
  | .ok (.noProject target) =>
    .ok ⟨target,
      normalizeLineEndings []
        (renderPJson (docSetPm ⟨[], strL ("  "), false⟩
          (info.name ++ '@' :: info.reference)) ++ [('\n' : Char)]),
      strL ("unknown")⟩

/-! Concrete filesystem fixtures used to evaluate the embedding. -/

/-- A one-project filesystem: the given manifest read-outcome and env
file at directory `[d0]`, nothing anywhere else. -/
def singleProjectFs (d0 : Seg) (mr : ManifestRead) (er : EnvRead) : Fs :=
  { manifestAt := fun p => if p = [d0] then mr else .absent
    fileAt := fun p n => if p = [d0] ∧ n = envFileName then er else .absent }

/-- The merged local environment of a directory whose env-file read gave
`er` (`localEnv` in `loadSpec`). -/
def localEnvOf (deps : ExternalDeps) (procEnv : Env) : EnvRead → Env
  | .file c => mergeEnv procEnv (deps.parseEnv c)
  | _ => procEnv

/-- Whether an env-file read makes the merged environment a fresh object
(`localEnv !== process.env`). -/
def envReadFresh : EnvRead → Bool
  | .file _ => true
  | _ => false

/-- Fixture for the override-file claims: a structured `yarn@2.1.0`
declaration with an env file whose content carries no matching key. -/
def c1Fs : Fs :=
  singleProjectFs (strL ("proj"))
    (.parsed ⟨none, some (.single (strL ("yarn")) (strL ("2.1.0")))⟩ ⟨[], strL ("  "), false⟩)
    (.file (strL ("FOO=bar\n")))

/-- Fixture for the node-modules claim: a manifest with a legacy field
inside a subdirectory of an installed dependency. -/
def c3Fs : Fs :=
  { manifestAt := fun p =>
      if p = [strL ("app"), nmSeg, strL ("dep"), strL ("dist")] then
        .parsed ⟨some (strL ("yarn@1.2.3")), none⟩ ⟨[], strL ("  "), false⟩
      else .absent
    fileAt := fun _ _ => .absent }

/-- Fixture for the env-file-name claim: the directory carries an
`.other.env` override file but no `.corepack.env`. -/
def c9Fs : Fs :=
  { manifestAt := fun p =>
      if p = [strL ("proj")] then
        .parsed ⟨none, some (.single (strL ("yarn")) (strL ("2.1.0")))⟩ ⟨[], strL ("  "), false⟩
      else .absent
    fileAt := fun p n =>
      if p = [strL ("proj")] ∧ n = strL (".other.env") then
        .file (strL ("COREPACK_DEV_ENGINES_YARN=2.1.0"))
      else .absent }

/-! Basic lemmas about the JS string primitives. -/

theorem take_len_append (a b : List Char) : (a ++ b).take a.length = a := by
  simp

theorem drop_len_append (a b : List Char) : (a ++ b).drop a.length = b := by
  simp

theorem drop_len_append_add (a b : List Char) (o : Nat) :
    (a ++ b).drop (a.length + o) = b.drop o := by
  induction a with
  | nil => simp
  | cons x a ih => simpa [Nat.succ_add] using ih

theorem isPrefixOf_append_self (a b : List Char) : a.isPrefixOf (a ++ b) = true := by
  rw [List.isPrefixOf_iff_prefix]
  exact List.prefix_append a b

theorem findSub_cons_self (c : Char) (t : List Char) : findSub [c] (c :: t) = some 0 := by
  simp [findSub, List.isPrefixOf]

theorem findSub_char_append (c : Char) (a b : List Char) (h : c ∉ a) :
    findSub [c] (a ++ b) = (findSub [c] b).map (· + a.length) := by
  induction a with
  | nil =>
    cases hf : findSub [c] b <;> simp [hf]
  | cons x a ih =>
    have hcx : ¬ ([c].isPrefixOf (x :: (a ++ b)) = true) := by
      rw [List.isPrefixOf_iff_prefix]
      intro hpre
      rcases hpre with ⟨t, ht⟩
      simp only [List.singleton_append, List.cons.injEq] at ht
      exact h (by simp [ht.1])
    have h' : c ∉ a := fun hm => h (List.mem_cons_of_mem _ hm)
    rw [List.cons_append]
    show findSub [c] (x :: (a ++ b)) = _
    rw [findSub]
    rw [if_neg hcx, ih h']
    cases hf : findSub [c] b <;> simp [hf] <;> omega

theorem findSub_char_none (c : Char) (s : List Char) (h : c ∉ s) :
    findSub [c] s = none := by
  have := findSub_char_append c s [] h
  simpa [findSub] using this

theorem occursAtB_cons_succ (pat : List Char) (c : Char) (t : List Char) (i : Nat) :
    occursAtB pat (c :: t) (i + 1) = occursAtB pat t i := rfl

theorem findSub_none_imp (pat s : List Char) (h : findSub pat s = none) :
    ∀ i, occursAtB pat s i = false := by
  induction s with
  | nil =>
    intro i
    rw [findSub] at h
    by_cases hp : pat.isPrefixOf ([] : List Char) = true
    · simp [hp] at h
    · simp only [Bool.not_eq_true] at hp
      simp [occursAtB, List.drop_nil, hp]
  | cons c t ih =>
    intro i
    rw [findSub] at h
    by_cases hp : pat.isPrefixOf (c :: t) = true
    · simp [hp] at h
    · simp only [if_neg hp] at h
      have ht : findSub pat t = none := by
        cases hf : findSub pat t <;> simp [hf] at h ⊢
      match i with
      | 0 =>
        simp only [Bool.not_eq_true] at hp
        simpa [occursAtB] using hp
      | i + 1 =>
        rw [occursAtB_cons_succ]
        exact ih ht i

theorem lastSub_none_of (pat s : List Char) (hp : pat ≠ [])
    (h : ∀ i, occursAtB pat s i = false) : lastSub pat s = none := by
  induction s with
  | nil =>
    rw [lastSub]
    rw [if_neg]
    intro hpre
    rcases pat with _ | ⟨c, t⟩
    · exact hp rfl
    · simp [List.isPrefixOf] at hpre
  | cons c t ih =>
    have ht : lastSub pat t = none := by
      apply ih
      intro i
      have := h (i + 1)
      rwa [occursAtB_cons_succ] at this
    rw [lastSub, ht]
    have h0 := h 0
    simp only [occursAtB, List.drop_zero] at h0
    simp [h0]

theorem lastSub_some_of (pat s : List Char) (i : Nat) (hp : pat ≠ [])
    (hocc : occursAtB pat s i = true)
    (hmax : ∀ j, i < j → occursAtB pat s j = false) : lastSub pat s = some i := by
  induction s generalizing i with
  | nil =>
    exfalso
    simp only [occursAtB, List.drop_nil] at hocc
    rcases pat with _ | ⟨c, t⟩
    · exact hp rfl
    · simp [List.isPrefixOf] at hocc
  | cons c t ih =>
    match i with
    | 0 =>
      have ht : lastSub pat t = none := by
        apply lastSub_none_of pat t hp
        intro j
        have := hmax (j + 1) (Nat.succ_pos j)
        rwa [occursAtB_cons_succ] at this
      rw [lastSub, ht]
      simp only [occursAtB, List.drop_zero] at hocc
      simp [hocc]
    | i + 1 =>
      have hocc' : occursAtB pat t i = true := by rwa [occursAtB_cons_succ] at hocc
      have hmax' : ∀ j, i < j → occursAtB pat t j = false := by
        intro j hj
        have := hmax (j + 1) (Nat.succ_lt_succ hj)
        rwa [occursAtB_cons_succ] at this
      rw [lastSub, ih i hocc' hmax']

theorem no_occ_clean_append (pat a b : List Char) (hc : Char)
    (hhead : pat.head? = some hc) (ha : hc ∉ a)
    (hb : ∀ o, occursAtB pat b o = false) :
    ∀ o, occursAtB pat (a ++ b) o = false := by
  induction a with
  | nil => simpa using hb
  | cons x a ih =>
    intro o
    match o with
    | 0 =>
      simp only [occursAtB, List.drop_zero]
      rcases pat with _ | ⟨p, ps⟩
      · simp at hhead
      · have hpc : p = hc := by simpa using hhead
        subst hpc
        simp only [List.cons_append, List.isPrefixOf]
        have : ¬ (p = x) := fun hpx => ha (by simp [hpx])
        simp [beq_iff_eq, this]
    | o + 1 =>
      rw [List.cons_append, occursAtB_cons_succ]
      exact ih (fun hm => ha (List.mem_cons_of_mem _ hm)) o

/-! Facts about the supported-manager set. -/

theorem supported_no_at (n : JStr) (h : isSupportedPackageManager n = true) :
    ('@' : Char) ∉ n := by
  have h2 : (n = strL ("npm") ∨ n = strL ("pnpm")) ∨ n = strL ("yarn") := by
    simpa [isSupportedPackageManager] using h
  rcases h2 with (h' | h') | h' <;>
    · subst h'; decide

theorem findSub_at_split (n v : JStr) (h : ('@' : Char) ∉ n) :
    findSub (strL ("@")) (n ++ '@' :: v) = some n.length := by
  have he : strL ("@") = ['@'] := rfl
  rw [he, findSub_char_append '@' n ('@' :: v) h, findSub_cons_self]
  simp

/-! Reduction lemmas for `parseSpec` on decomposed inputs. -/

/-- On `name@range` with a URL range, `parseSpec` reduces to the
unsafe-URL gate. -/
theorem parseSpec_url_branch (deps : ExternalDeps) (procEnv : Env) (opts : ParseOpts)
    (name range : JStr) (hn : ('@' : Char) ∉ name) (hr : range ≠ [])
    (hurl : deps.canParseURL range = true) :
    parseSpec deps procEnv (.str (name ++ '@' :: range)) opts =
      if isSupportedPackageManager name = true ∧
          envLookup procEnv unsafeURLKey ≠ some (strL ("1")) then
        .error .illegalCustomURL
      else
        .ok ⟨name, range⟩ := by
  have hrl : 0 < range.length := List.length_pos.mpr hr
  have hne : ¬ (name.length = (name ++ '@' :: range).length - 1) := by
    simp only [List.length_append, List.length_cons]
    omega
  have hdrop : (name ++ '@' :: range).drop (name.length + 1) = range := by
    simpa using drop_len_append_add name ('@' :: range) 1
  simp only [parseSpec, findSub_at_split name range hn]
  rw [if_neg hne]
  simp only [take_len_append, hdrop, hurl, Bool.not_true, Bool.false_eq_true, if_false]

/-- On `name@version` with a non-URL range, `parseSpec` succeeds for a
supported name when either exactness is not enforced or the version is
semver-valid. -/
theorem parseSpec_exact (deps : ExternalDeps) (procEnv : Env) (opts : ParseOpts)
    (n v : JStr) (hn : ('@' : Char) ∉ n) (hne : v ≠ [])
    (hu : deps.canParseURL v = false)
    (hv : opts.enforceExactVersion = true → deps.semverValid v = true)
    (hs : isSupportedPackageManager n = true) :
    parseSpec deps procEnv (.str (n ++ '@' :: v)) opts = .ok ⟨n, v⟩ := by
  have hrl : 0 < v.length := List.length_pos.mpr hne
  have hlen : ¬ (n.length = (n ++ '@' :: v).length - 1) := by
    simp only [List.length_append, List.length_cons]
    omega
  have hdrop : (n ++ '@' :: v).drop (n.length + 1) = v := by
    simpa using drop_len_append_add n ('@' :: v) 1
  simp only [parseSpec, findSub_at_split n v hn]
  rw [if_neg hlen]
  simp only [take_len_append, hdrop, hu, Bool.not_false, if_true]
  cases he : opts.enforceExactVersion with
  | false => simp [hs]
  | true => simp [hs, hv he]

/-- On a bare name without `@`, `parseSpec` reduces to the missing-version
or wildcard branch. -/
theorem parseSpec_bare (deps : ExternalDeps) (procEnv : Env) (opts : ParseOpts)
    (n : JStr) (hn : ('@' : Char) ∉ n) (hs : isSupportedPackageManager n = true) :
    parseSpec deps procEnv (.str n) opts =
      if opts.enforceExactVersion then .error .missingVersion
      else .ok ⟨n, strL ("*")⟩ := by
  have hnone : findSub (strL ("@")) n = none := findSub_char_none '@' n hn
  simp only [parseSpec, hnone]
  cases he : opts.enforceExactVersion <;> simp [hs]

/-- On a name with a trailing `@`, `parseSpec` behaves as on the bare
name. -/
theorem parseSpec_trailing_at (deps : ExternalDeps) (procEnv : Env) (opts : ParseOpts)
    (n : JStr) (hn : ('@' : Char) ∉ n) (hs : isSupportedPackageManager n = true) :
    parseSpec deps procEnv (.str (n ++ [('@' : Char)])) opts =
      if opts.enforceExactVersion then .error .missingVersion
      else .ok ⟨n, strL ("*")⟩ := by
  have hlen : n.length = (n ++ '@' :: ([] : JStr)).length - 1 := by
    simp
  have hdl : (n ++ '@' :: ([] : JStr)).dropLast = n := by
    simpa using List.dropLast_concat n ('@' : Char)
  rw [show (n ++ [('@' : Char)]) = n ++ '@' :: ([] : JStr) from rfl]
  simp only [parseSpec, findSub_at_split n ([] : JStr) hn]
  rw [if_pos hlen, hdl]
  cases he : opts.enforceExactVersion <;> simp [hs]

/-- C6: for every input `name@range` whose range parses as an absolute
URL, `parseSpec` fails with the unsafe-custom-URL error exactly when the
name is a supported manager and the opt-in environment variable is not
active; when the name is unsupported or the opt-in is active it succeeds
and returns the URL as the range. -/
theorem c6_url_gate (deps : ExternalDeps) (procEnv : Env) (opts : ParseOpts)
    (name range : JStr) (hn : ('@' : Char) ∉ name) (hr : range ≠ [])
    (hurl : deps.canParseURL range = true) :
    (parseSpec deps procEnv (.str (name ++ '@' :: range)) opts =
        .error .illegalCustomURL ↔
      (isSupportedPackageManager name = true ∧
        envLookup procEnv unsafeURLKey ≠ some (strL ("1")))) ∧
    ((isSupportedPackageManager name = false ∨
        envLookup procEnv unsafeURLKey = some (strL ("1"))) →
      parseSpec deps procEnv (.str (name ++ '@' :: range)) opts = .ok ⟨name, range⟩) := by
  rw [parseSpec_url_branch deps procEnv opts name range hn hr hurl]
  constructor
  · by_cases hcond : isSupportedPackageManager name = true ∧
        envLookup procEnv unsafeURLKey ≠ some (strL ("1"))
    · simp [hcond]
    · simp only [if_neg hcond]
      constructor
      · intro hres
        exact absurd hres (by simp)
      · intro hc
        exact absurd hc hcond
  · intro hsucc
    have hcond : ¬ (isSupportedPackageManager name = true ∧
        envLookup procEnv unsafeURLKey ≠ some (strL ("1"))) := by
      rcases hsucc with hno | hyes
      · intro hc
        rw [hno] at hc
        exact absurd hc.1 (by simp)
      · intro hc
        exact hc.2 hyes
    simp [hcond]

/-- C6 witness: a supported manager with a URL range and no opt-in is
rejected. -/
theorem c6_url_gate_witness :
    parseSpec sampleDeps [] (.str (strL ("yarn") ++ '@' :: strL ("https://example.com/x.tgz")))
      ⟨true⟩ = .error .illegalCustomURL :=
  (c6_url_gate sampleDeps [] ⟨true⟩ (strL ("yarn")) (strL ("https://example.com/x.tgz"))
    (by decide) (by decide) (by decide)).1.mpr (by decide)

/-- C7: for every supported manager name and semver-valid exact version,
`parseSpec` on `n@v` yields the descriptor with that name and range
(whether or not exactness is enforced); on a bare `n` (or `n@` with a
trailing separator) it fails with the missing-version error when an exact
version is required and yields the `*` range otherwise. -/
theorem c7_parse_roundtrip (deps : ExternalDeps) (procEnv : Env) (n v : JStr)
    (hs : isSupportedPackageManager n = true)
    (hv : deps.semverValid v = true) (hu : deps.canParseURL v = false)
    (hne : v ≠ []) :
    parseSpec deps procEnv (.str (n ++ '@' :: v)) ⟨true⟩ = .ok ⟨n, v⟩ ∧
    parseSpec deps procEnv (.str (n ++ '@' :: v)) ⟨false⟩ = .ok ⟨n, v⟩ ∧
    parseSpec deps procEnv (.str n) ⟨true⟩ = .error .missingVersion ∧
    parseSpec deps procEnv (.str n) ⟨false⟩ = .ok ⟨n, strL ("*")⟩ ∧
    parseSpec deps procEnv (.str (n ++ [('@' : Char)])) ⟨true⟩ = .error .missingVersion ∧
    parseSpec deps procEnv (.str (n ++ [('@' : Char)])) ⟨false⟩ = .ok ⟨n, strL ("*")⟩ := by
  have hn : ('@' : Char) ∉ n := supported_no_at n hs
  refine ⟨?_, ?_, ?_, ?_, ?_, ?_⟩
  · exact parseSpec_exact deps procEnv ⟨true⟩ n v hn hne hu (fun _ => hv) hs
  · exact parseSpec_exact deps procEnv ⟨false⟩ n v hn hne hu (fun h => by cases h) hs
  · rw [parseSpec_bare deps procEnv ⟨true⟩ n hn hs]
    simp
  · rw [parseSpec_bare deps procEnv ⟨false⟩ n hn hs]
    simp
  · rw [parseSpec_trailing_at deps procEnv ⟨true⟩ n hn hs]
    simp
  · rw [parseSpec_trailing_at deps procEnv ⟨false⟩ n hn hs]
    simp

/-- C7 witness: instantiated at `yarn@2.1.0`. -/
theorem c7_parse_roundtrip_witness :
    parseSpec sampleDeps [] (.str (strL ("yarn") ++ '@' :: strL ("2.1.0"))) ⟨true⟩ =
      .ok ⟨strL ("yarn"), strL ("2.1.0")⟩ :=
  (c7_parse_roundtrip sampleDeps [] (strL ("yarn")) (strL ("2.1.0"))
    (by decide) (by decide) (by decide) (by decide)).1

/-- C4 (counterexample): with a structured declaration `yarn@2.x`, an
empty-string legacy `packageManager` field is present in the manifest but
JS-falsy, so the source synthesizes `yarn@2.x` instead of raising the
name-mismatch error the claim requires for every present legacy field. -/
theorem c4_empty_legacy_not_checked :
    parsePackageJSON sampleDeps
        ⟨some [], some (.single (strL ("yarn")) (strL ("2.x")))⟩ [] =
      .ok (some (strL ("yarn@2.x"))) ∧
    parsePackageJSON sampleDeps
        ⟨some [], some (.single (strL ("yarn")) (strL ("2.x")))⟩ [] ≠
      .error .declarationNameMismatch := by
  decide

/-- C4 (amended): for a structured declaration not overridden by the
merged environment, a present and non-empty legacy field must name the
same manager (else the name-mismatch error) and its sliced version must
satisfy the constraint (else the version-mismatch error), and is then
returned verbatim; an absent or empty legacy field yields the synthesized
`name@constraint` spec. -/
theorem c4_legacy_precedence (deps : ExternalDeps) (m : CorepackPackageJSON)
    (localEnv : Env) (nm ver : JStr)
    (hdev : m.devEnginesPackageManager = some (.single nm ver))
    (hver : ver ≠ [])
    (henv : truthy (envLookup localEnv (devEnginesKey nm)) = false) :
    (∀ pm, m.packageManager = some pm → pm ≠ [] →
      (((nm ++ [('@' : Char)]).isPrefixOf pm = false →
          parsePackageJSON deps m localEnv = .error .declarationNameMismatch) ∧
       ((nm ++ [('@' : Char)]).isPrefixOf pm = true →
          deps.semverSatisfies (pm.drop (nm.length + 1)) ver = false →
          parsePackageJSON deps m localEnv = .error .declarationVersionMismatch) ∧
       ((nm ++ [('@' : Char)]).isPrefixOf pm = true →
          deps.semverSatisfies (pm.drop (nm.length + 1)) ver = true →
          parsePackageJSON deps m localEnv = .ok (some pm)))) ∧
    ((m.packageManager = none ∨ m.packageManager = some []) →
      parsePackageJSON deps m localEnv = .ok (some (nm ++ '@' :: ver))) := by
  have hva : ver.isEmpty = false := by
    cases ver with
    | nil => exact absurd rfl hver
    | cons c t => rfl
  constructor
  · intro pm hpm hpmne
    have hpme : pm.isEmpty = false := by
      cases pm with
      | nil => exact absurd rfl hpmne
      | cons c t => rfl
    refine ⟨?_, ?_, ?_⟩
    · intro h1
      simp [parsePackageJSON, hdev, hva, henv, hpm, hpme, h1]
    · intro h1 h2
      simp [parsePackageJSON, hdev, hva, henv, hpm, hpme, h1, h2]
    · intro h1 h2
      simp [parsePackageJSON, hdev, hva, henv, hpm, hpme, h1, h2]
  · intro hcase
    rcases hcase with hpm | hpm <;>
      simp [parsePackageJSON, hdev, hva, henv, hpm]

/-- C4 witness: legacy `yarn@2.1.0` against constraint `2.x` is returned
verbatim. -/
theorem c4_legacy_precedence_witness :
    parsePackageJSON sampleDeps
        ⟨some (strL ("yarn@2.1.0")), some (.single (strL ("yarn")) (strL ("2.x")))⟩ [] =
      .ok (some (strL ("yarn@2.1.0"))) :=
  ((c4_legacy_precedence sampleDeps _ [] (strL ("yarn")) (strL ("2.x")) rfl
      (by decide) (by decide)).1
    (strL ("yarn@2.1.0")) rfl (by decide)).2.2 (by decide) (by decide)

/-- C10: when the merged environment maps the matching override key to the
empty string, resolution of the manifest behaves exactly as if the key
were absent, and in particular no override-constraint-mismatch error can
arise. -/
theorem c10_empty_override_ignored (deps : ExternalDeps) (m : CorepackPackageJSON)
    (localEnv : Env) (nm ver : JStr)
    (hdev : m.devEnginesPackageManager = some (.single nm ver))
    (hlk : envLookup localEnv (devEnginesKey nm) = some ([] : JStr)) :
    parsePackageJSON deps m localEnv = parsePackageJSON deps m ([] : Env) ∧
    parsePackageJSON deps m localEnv ≠ .error .overrideConstraintMismatch := by
  have ht : truthy (envLookup localEnv (devEnginesKey nm)) = false := by
    rw [hlk]; rfl
  have h0 : envLookup ([] : Env) (devEnginesKey nm) = none := rfl
  have hsame : parsePackageJSON deps m localEnv = parsePackageJSON deps m ([] : Env) := by
    simp only [parsePackageJSON, hdev, ht, h0]
    rfl
  refine ⟨hsame, ?_⟩
  rw [hsame]
  by_cases hva : ver.isEmpty = true
  · simp [parsePackageJSON, hdev, hva]
  · cases hpm : m.packageManager with
    | none => simp [parsePackageJSON, hdev, hva, hpm, h0, truthy]
    | some pm =>
      by_cases hpme : pm.isEmpty = true
      · simp [parsePackageJSON, hdev, hva, hpm, hpme, h0, truthy]
      · by_cases h1 : (nm ++ [('@' : Char)]).isPrefixOf pm = true <;>
          by_cases h2 : deps.semverSatisfies (pm.drop (nm.length + 1)) ver = true <;>
          simp [parsePackageJSON, hdev, hva, hpm, hpme, h0, truthy, h1, h2]

/-- C10 witness: an empty-string override value for yarn leaves a
legacy+structured manifest resolving as if no override existed. -/
theorem c10_empty_override_ignored_witness :
    parsePackageJSON sampleDeps
        ⟨some (strL ("yarn@2.1.0")), some (.single (strL ("yarn")) (strL ("2.x")))⟩
        [(devEnginesKey (strL ("yarn")), [])] =
      parsePackageJSON sampleDeps
        ⟨some (strL ("yarn@2.1.0")), some (.single (strL ("yarn")) (strL ("2.x")))⟩ [] :=
  (c10_empty_override_ignored sampleDeps _ _ (strL ("yarn")) (strL ("2.x")) rfl
    (by decide)).1

/-! Lemmas about the upward walk. -/

theorem visitDir_ok_some (deps : ExternalDeps) (procEnv : Env) (fs : Fs) (cwd : Path)
    (s : Selection) (h : visitDir deps procEnv fs cwd = .ok (some s)) :
    s.dir = cwd ∧ nodeModulesMatch cwd = false := by
  by_cases hm : nodeModulesMatch cwd = true
  · rw [visitDir, if_pos hm] at h
    exact absurd h (by simp)
  · simp only [Bool.not_eq_true] at hm
    refine ⟨?_, hm⟩
    rw [visitDir, if_neg (by simp [hm])] at h
    cases hman : fs.manifestAt cwd <;> rw [hman] at h
    · exact absurd h (by simp)
    · exact absurd h (by simp)
    · exact absurd h (by simp)
    · cases hf : fs.fileAt cwd envFileName <;> rw [hf] at h
      · have hs := Option.some.inj (Except.ok.inj h)
        rw [← hs]
      · exact absurd h (by simp)
      · have hs := Option.some.inj (Except.ok.inj h)
        rw [← hs]

theorem visitDir_invalid (deps : ExternalDeps) (procEnv : Env) (fs : Fs) (cwd : Path)
    (d : Path) (h : visitDir deps procEnv fs cwd = .error (.invalidManifest d)) :
    d = cwd ∧ nodeModulesMatch cwd = false := by
  by_cases hm : nodeModulesMatch cwd = true
  · rw [visitDir, if_pos hm] at h
    exact absurd h (by simp)
  · simp only [Bool.not_eq_true] at hm
    rw [visitDir, if_neg (by simp [hm])] at h
    cases hman : fs.manifestAt cwd <;> rw [hman] at h
    · exact absurd h (by simp)
    · exact absurd h (by simp)
    · have hd := SpecError.invalidManifest.inj (Except.error.inj h).symm
      exact ⟨hd, hm⟩
    · cases hf : fs.fileAt cwd envFileName <;> rw [hf] at h <;> exact absurd h (by simp)

theorem loadSpecLoop_nm (deps : ExternalDeps) (procEnv : Env) (fs : Fs) :
    ∀ (revCwd : List Seg) (sel : Option Selection),
      (∀ s, sel = some s → nodeModulesMatch s.dir = false) →
      (∀ s, loadSpecLoop deps procEnv fs revCwd sel = .ok (some s) →
          nodeModulesMatch s.dir = false) ∧
      (∀ d, loadSpecLoop deps procEnv fs revCwd sel = .error (.invalidManifest d) →
          nodeModulesMatch d = false) := by
  intro revCwd
  induction revCwd with
  | nil =>
    intro sel hsel
    constructor
    · intro s h
      rw [loadSpecLoop] at h
      by_cases hpm : selHasPM sel = true
      · rw [if_pos hpm] at h
        exact hsel s (Except.ok.inj h)
      · rw [if_neg hpm] at h
        cases hv : visitDir deps procEnv fs ([] : List Seg).reverse <;> rw [hv] at h
        · exact absurd h (by simp)
        · rename_i step
          cases step with
          | none =>
            simp only [Option.isSome_none, Bool.false_eq_true, if_false] at h
            exact hsel s (Except.ok.inj h)
          | some s0 =>
            simp only [Option.isSome_some, if_true] at h
            have hs : s0 = s := Option.some.inj (Except.ok.inj h)
            rw [← hs]
            exact (visitDir_ok_some deps procEnv fs _ s0 hv).1 ▸
              (visitDir_ok_some deps procEnv fs _ s0 hv).2
    · intro d h
      rw [loadSpecLoop] at h
      by_cases hpm : selHasPM sel = true
      · rw [if_pos hpm] at h
        exact absurd h (by simp)
      · rw [if_neg hpm] at h
        cases hv : visitDir deps procEnv fs ([] : List Seg).reverse <;> rw [hv] at h
        · rename_i e
          have he : e = .invalidManifest d := Except.error.inj h
          rw [he] at hv
          exact (visitDir_invalid deps procEnv fs _ d hv).1 ▸
            (visitDir_invalid deps procEnv fs _ d hv).2
        · exact absurd h (by simp)
  | cons a t ih =>
    intro sel hsel
    constructor
    · intro s h
      rw [loadSpecLoop] at h
      by_cases hpm : selHasPM sel = true
      · rw [if_pos hpm] at h
        exact hsel s (Except.ok.inj h)
      · rw [if_neg hpm] at h
        cases hv : visitDir deps procEnv fs (a :: t).reverse <;> rw [hv] at h
        · exact absurd h (by simp)
        · rename_i step
          have hsel' : ∀ s', (if step.isSome then step else sel) = some s' →
              nodeModulesMatch s'.dir = false := by
            intro s' hs'
            cases step with
            | none => exact hsel s' (by simpa using hs')
            | some s0 =>
              have : s0 = s' := by simpa using hs'
              rw [← this]
              exact (visitDir_ok_some deps procEnv fs _ s0 hv).1 ▸
                (visitDir_ok_some deps procEnv fs _ s0 hv).2
          exact (ih _ hsel').1 s h
    · intro d h
      rw [loadSpecLoop] at h
      by_cases hpm : selHasPM sel = true
      · rw [if_pos hpm] at h
        exact absurd h (by simp)
      · rw [if_neg hpm] at h
        cases hv : visitDir deps procEnv fs (a :: t).reverse <;> rw [hv] at h
        · rename_i e
          have he : e = .invalidManifest d := Except.error.inj h
          rw [he] at hv
          exact (visitDir_invalid deps procEnv fs _ d hv).1 ▸
            (visitDir_invalid deps procEnv fs _ d hv).2
        · rename_i step
          have hsel' : ∀ s', (if step.isSome then step else sel) = some s' →
              nodeModulesMatch s'.dir = false := by
            intro s' hs'
            cases step with
            | none => exact hsel s' (by simpa using hs')
            | some s0 =>
              have : s0 = s' := by simpa using hs'
              rw [← this]
              exact (visitDir_ok_some deps procEnv fs _ s0 hv).1 ▸
                (visitDir_ok_some deps procEnv fs _ s0 hv).2
          exact (ih _ hsel').2 d h

theorem parsePackageJSON_no_invalid (deps : ExternalDeps) (m : CorepackPackageJSON)
    (localEnv : Env) (d : Path) :
    parsePackageJSON deps m localEnv ≠ .error (.invalidManifest d) := by
  cases hdev : m.devEnginesPackageManager with
  | none => simp [parsePackageJSON, hdev]
  | some pmDecl =>
    cases pmDecl with
    | multiple => simp [parsePackageJSON, hdev]
    | single nm ver =>
      by_cases hva : ver.isEmpty = true
      · simp [parsePackageJSON, hdev, hva]
      · by_cases ht : truthy (envLookup localEnv (devEnginesKey nm)) = true
        · by_cases hsat :
              deps.semverSatisfies ((envLookup localEnv (devEnginesKey nm)).getD []) ver = true <;>
            simp [parsePackageJSON, hdev, hva, ht, hsat]
        · cases hpm : m.packageManager with
          | none => simp [parsePackageJSON, hdev, hva, ht, hpm]
          | some pm =>
            by_cases hpme : pm.isEmpty = true
            · simp [parsePackageJSON, hdev, hva, ht, hpm, hpme]
            · by_cases h1 : (nm ++ [('@' : Char)]).isPrefixOf pm = true <;>
                by_cases h2 : deps.semverSatisfies (pm.drop (nm.length + 1)) ver = true <;>
                simp [parsePackageJSON, hdev, hva, ht, hpm, hpme, h1, h2]

theorem parseSpec_no_invalid (deps : ExternalDeps) (procEnv : Env) (raw : RawValue)
    (opts : ParseOpts) (d : Path) :
    parseSpec deps procEnv raw opts ≠ .error (.invalidManifest d) := by
  cases raw with
  | nonString => simp [parseSpec]
  | str s =>
    cases hfi : findSub (strL ("@")) s with
    | none =>
      simp only [parseSpec, hfi]
      split_ifs <;> simp
    | some atIndex =>
      simp only [parseSpec, hfi]
      split_ifs <;> simp

/-- C3 (amended): the walk skips exactly the directories matching the
node-modules package-root pattern, so every adopted manifest directory —
the target of `Found` or `NoSpec`, or the directory of a fatal
invalid-manifest error — fails that pattern. -/
theorem c3_skips_package_roots (deps : ExternalDeps) (procEnv : Env) (fs : Fs)
    (start : Path) :
    (∀ t spec e, loadSpec deps procEnv fs start = .ok (.found t spec e) →
        nodeModulesMatch t.dropLast = false) ∧
    (∀ t, loadSpec deps procEnv fs start = .ok (.noSpec t) →
        nodeModulesMatch t.dropLast = false) ∧
    (∀ d, loadSpec deps procEnv fs start = .error (.invalidManifest d) →
        nodeModulesMatch d = false) := by
  have hloop := loadSpecLoop_nm deps procEnv fs start.reverse none (by intro s h; cases h)
  refine ⟨?_, ?_, ?_⟩
  · intro t spec e h
    rw [loadSpec] at h
    split at h
    · exact absurd h (by simp)
    · exact absurd h (by simp)
    · rename_i sel hl
      split at h
      · exact absurd h (by simp)
      · exact absurd h (by simp)
      · rename_i raw hp
        split at h
        · exact absurd h (by simp)
        · rename_i spec2 hs
          have ht : sel.dir ++ [pkgJsonSeg] = t := by
            have hinj := Except.ok.inj h
            cases hinj
            rfl
          rw [← ht, List.dropLast_concat]
          exact hloop.1 sel hl
  · intro t h
    rw [loadSpec] at h
    split at h
    · exact absurd h (by simp)
    · exact absurd h (by simp)
    · rename_i sel hl
      split at h
      · exact absurd h (by simp)
      · have ht : sel.dir ++ [pkgJsonSeg] = t := by
          have hinj := Except.ok.inj h
          cases hinj
          rfl
        rw [← ht, List.dropLast_concat]
        exact hloop.1 sel hl
      · rename_i raw hp
        split at h
        · exact absurd h (by simp)
        · exact absurd h (by simp)
  · intro d h
    rw [loadSpec] at h
    split at h
    · rename_i e he
      have hinv : e = .invalidManifest d := Except.error.inj h
      rw [hinv] at he
      exact hloop.2 d he
    · exact absurd h (by simp)
    · rename_i sel hl
      split at h
      · rename_i e hp
        have hinv : e = .invalidManifest d := Except.error.inj h
        rw [hinv] at hp
        exact absurd hp (parsePackageJSON_no_invalid deps sel.m sel.localEnv d)
      · exact absurd h (by simp)
      · rename_i raw hp
        split at h
        · rename_i e hs
          have hinv : e = .invalidManifest d := Except.error.inj h
          rw [hinv] at hs
          exact absurd hs (parseSpec_no_invalid deps procEnv (.str raw) ⟨true⟩ d)
        · exact absurd h (by simp)

/-- C3 witness: a plain project directory is adopted and its directory
does not match the node-modules pattern. -/
theorem c3_skips_package_roots_witness :
    nodeModulesMatch ([strL ("proj"), pkgJsonSeg].dropLast) = false :=
  (c3_skips_package_roots sampleDeps []
      (singleProjectFs (strL ("proj"))
        (.parsed ⟨some (strL ("yarn@2.1.0")), none⟩ ⟨[], strL ("  "), false⟩) .absent)
      [strL ("proj")]).1
    [strL ("proj"), pkgJsonSeg] ⟨strL ("yarn"), strL ("2.1.0")⟩ none (by decide)

/-- C3 (counterexample): a manifest inside a subdirectory of an installed
dependency — reachable only through a `node_modules` segment — is adopted
as the `Found` target, because the skip pattern only matches package
roots (`node_modules/<pkg>` or `node_modules/@scope/<pkg>`), not deeper
directories. -/
theorem c3_node_modules_subdir_adopted :
    loadSpec sampleDeps [] c3Fs [strL ("app"), nmSeg, strL ("dep"), strL ("dist")] =
      .ok (.found [strL ("app"), nmSeg, strL ("dep"), strL ("dist"), pkgJsonSeg]
        ⟨strL ("yarn"), strL ("1.2.3")⟩ none) ∧
    nmSeg ∈ [strL ("app"), nmSeg, strL ("dep"), strL ("dist")] := by
  decide

/-- C1 (code bug): with a structured `yarn@2.1.0` declaration and an env
file containing only `FOO=bar`, the override contributes nothing — the
merged environment maps no `COREPACK_DEV_ENGINES_YARN` key — yet the env
file path is surfaced, because the source's `localEnv !== process.env`
check holds whenever the file exists; persistence therefore targets the
env file and trips the source's own internal assertion. -/
theorem c1_envfile_path_surfaced_without_contribution :
    loadSpec sampleDeps [] c1Fs [strL ("proj")] =
      .ok (.found [strL ("proj"), pkgJsonSeg] ⟨strL ("yarn"), strL ("2.1.0")⟩
        (some [strL ("proj"), envFileName])) ∧
    envLookup (mergeEnv [] (simpleParseEnv (strL ("FOO=bar\n"))))
      (devEnginesKey (strL ("yarn"))) = none ∧
    setLocalPackageManager sampleDeps [] c1Fs [strL ("proj")]
        ⟨strL ("yarn"), strL ("2.4.3")⟩ =
      .error .internalAssertion := by
  decide

/-- C9 (code bug): the env-file read is hard-coded to `.corepack.env`:
with `COREPACK_ENV_FILE=.other.env` in the ambient environment and an
`.other.env` override file on disk, resolution neither reads the
alternate file (the result is identical with and without the variable,
with no env path surfaced) nor persists to it — the writer targets the
manifest instead. -/
theorem c9_env_file_name_fixed :
    loadSpec sampleDeps [(strL ("COREPACK_ENV_FILE"), strL (".other.env"))] c9Fs
        [strL ("proj")] =
      .ok (.found [strL ("proj"), pkgJsonSeg] ⟨strL ("yarn"), strL ("2.1.0")⟩ none) ∧
    loadSpec sampleDeps [] c9Fs [strL ("proj")] =
      loadSpec sampleDeps [(strL ("COREPACK_ENV_FILE"), strL (".other.env"))] c9Fs
        [strL ("proj")] ∧
    setLocalPackageManager sampleDeps [(strL ("COREPACK_ENV_FILE"), strL (".other.env"))]
        c9Fs [strL ("proj")] ⟨strL ("yarn"), strL ("2.4.3")⟩ =
      .ok ⟨[strL ("proj"), pkgJsonSeg],
        strL ("\x7b\n  \x22packageManager\x22: \x22yarn@2.4.3\x22\n\x7d\n"),
        strL ("unknown")⟩ := by
  decide

theorem loadSpecLoop_stop (deps : ExternalDeps) (procEnv : Env) (fs : Fs)
    (revCwd : List Seg) (sel : Option Selection) (hpm : selHasPM sel = true) :
    loadSpecLoop deps procEnv fs revCwd sel = .ok sel := by
  rw [loadSpecLoop, hpm]
  simp

theorem loadSpecLoop_cons (deps : ExternalDeps) (procEnv : Env) (fs : Fs)
    (a : Seg) (t : List Seg) (sel : Option Selection)
    (hpm : selHasPM sel = false) (step : Option Selection)
    (hv : visitDir deps procEnv fs (a :: t).reverse = .ok step) :
    loadSpecLoop deps procEnv fs (a :: t) sel =
      loadSpecLoop deps procEnv fs t (if step.isSome then step else sel) := by
  rw [loadSpecLoop, hpm]
  simp only [Bool.false_eq_true, if_false, hv]

theorem loadSpecLoop_nil (deps : ExternalDeps) (procEnv : Env) (fs : Fs)
    (sel : Option Selection) (hpm : selHasPM sel = false) (step : Option Selection)
    (hv : visitDir deps procEnv fs (([] : List Seg)).reverse = .ok step) :
    loadSpecLoop deps procEnv fs [] sel = .ok (if step.isSome then step else sel) := by
  rw [loadSpecLoop, hpm]
  simp only [Bool.false_eq_true, if_false, hv]

theorem loadSpecLoop_single (deps : ExternalDeps) (procEnv : Env) (d0 : Seg)
    (m : CorepackPackageJSON) (doc : PJsonDoc) (er : EnvRead) (her : er ≠ .ioError) :
    loadSpecLoop deps procEnv (singleProjectFs d0 (.parsed m doc) er) [d0] none =
      .ok (some ⟨m, doc, [d0], localEnvOf deps procEnv er, envReadFresh er⟩) := by
  have hnm : nodeModulesMatch [d0] = false := rfl
  have hrev : ([d0] : List Seg).reverse = [d0] := by simp
  have hv : visitDir deps procEnv (singleProjectFs d0 (.parsed m doc) er) [d0] =
      .ok (some ⟨m, doc, [d0], localEnvOf deps procEnv er, envReadFresh er⟩) := by
    cases er with
    | ioError => exact absurd rfl her
    | absent => simp [visitDir, singleProjectFs, localEnvOf, envReadFresh, hnm]
    | file c => simp [visitDir, singleProjectFs, localEnvOf, envReadFresh, hnm]
  have hvroot : visitDir deps procEnv (singleProjectFs d0 (.parsed m doc) er) [] =
      .ok none := by
    have hnm0 : nodeModulesMatch ([] : Path) = false := rfl
    have hne : ¬ (([] : Path) = [d0]) := by simp
    simp [visitDir, singleProjectFs, hnm0, hne]
  rw [loadSpecLoop_cons deps procEnv _ d0 [] none rfl _ (by rw [hrev]; exact hv)]
  simp only [Option.isSome_some, if_true]
  by_cases hpm : selHasPM (some ⟨m, doc, [d0], localEnvOf deps procEnv er, envReadFresh er⟩) = true
  · exact loadSpecLoop_stop deps procEnv _ [] _ hpm
  · simp only [Bool.not_eq_true] at hpm
    rw [loadSpecLoop_nil deps procEnv _ _ hpm none (by simpa using hvroot)]
    simp

theorem loadSpec_single (deps : ExternalDeps) (procEnv : Env) (d0 : Seg)
    (m : CorepackPackageJSON) (doc : PJsonDoc) (er : EnvRead) (her : er ≠ .ioError) :
    loadSpec deps procEnv (singleProjectFs d0 (.parsed m doc) er) [d0] =
      (match parsePackageJSON deps m (localEnvOf deps procEnv er) with
       | .error e => .error e
       | .ok none => .ok (.noSpec [d0, pkgJsonSeg])
       | .ok (some raw) =>
         match parseSpec deps procEnv (.str raw) ⟨true⟩ with
         | .error e => .error e
         | .ok spec =>
           .ok (.found [d0, pkgJsonSeg] spec
             (if envReadFresh er then some [d0, envFileName] else none))) := by
  have hrev : ([d0] : List Seg).reverse = [d0] := by simp
  rw [loadSpec, hrev, loadSpecLoop_single deps procEnv d0 m doc er her]
  rfl

/-- C5 (amended): when the merged local environment (ambient environment
plus the env file's bindings when it exists) maps the matching override
key to a non-empty value: a value violating the structured constraint
fails resolution and persistence with the override-constraint error, so
nothing is written; a satisfying value becomes the effective version, and
the override file is marked as the contributing source exactly when the
override file exists — a key supplied only by the ambient environment
leaves no file marked. -/
theorem c5_override_behaviour (deps : ExternalDeps) (procEnv : Env) (d0 : Seg)
    (m : CorepackPackageJSON) (doc : PJsonDoc) (er : EnvRead)
    (nm ver lv : JStr) (info : Locator)
    (hdev : m.devEnginesPackageManager = some (.single nm ver))
    (hver : ver ≠ [])
    (her : er ≠ .ioError)
    (hlk : envLookup (localEnvOf deps procEnv er) (devEnginesKey nm) = some lv)
    (hlv : lv ≠ []) :
    (deps.semverSatisfies lv ver = false →
      loadSpec deps procEnv (singleProjectFs d0 (.parsed m doc) er) [d0] =
        .error .overrideConstraintMismatch ∧
      setLocalPackageManager deps procEnv (singleProjectFs d0 (.parsed m doc) er)
          [d0] info =
        .error .overrideConstraintMismatch) ∧
    (deps.semverSatisfies lv ver = true →
      ('@' : Char) ∉ nm →
      deps.canParseURL lv = false →
      deps.semverValid lv = true →
      isSupportedPackageManager nm = true →
      loadSpec deps procEnv (singleProjectFs d0 (.parsed m doc) er) [d0] =
        .ok (.found [d0, pkgJsonSeg] ⟨nm, lv⟩
          (if envReadFresh er then some [d0, envFileName] else none))) := by
  have hva : ver.isEmpty = false := by
    cases ver with
    | nil => exact absurd rfl hver
    | cons c t => rfl
  have htr : truthy (envLookup (localEnvOf deps procEnv er) (devEnginesKey nm)) = true := by
    rw [hlk]
    cases lv with
    | nil => exact absurd rfl hlv
    | cons c t => rfl
  have hgd : (envLookup (localEnvOf deps procEnv er) (devEnginesKey nm)).getD [] = lv := by
    rw [hlk]
    rfl
  constructor
  · intro hsat
    have hp : parsePackageJSON deps m (localEnvOf deps procEnv er) =
        .error .overrideConstraintMismatch := by
      simp [parsePackageJSON, hdev, hva, htr, hgd, hsat]
    have hload : loadSpec deps procEnv (singleProjectFs d0 (.parsed m doc) er) [d0] =
        .error .overrideConstraintMismatch := by
      rw [loadSpec_single deps procEnv d0 m doc er her]
      simp only [hp]
    refine ⟨hload, ?_⟩
    rw [setLocalPackageManager, hload]
  · intro hsat hnm hu hvv hsup
    have hp : parsePackageJSON deps m (localEnvOf deps procEnv er) =
        .ok (some (nm ++ '@' :: lv)) := by
      simp [parsePackageJSON, hdev, hva, htr, hgd, hsat]
    rw [loadSpec_single deps procEnv d0 m doc er her]
    simp only [hp, parseSpec_exact deps procEnv ⟨true⟩ nm lv hnm hlv hu (fun _ => hvv) hsup]

/-- C5 (counterexample): the ambient environment alone supplies a
satisfying `COREPACK_DEV_ENGINES_YARN=2.1.0` with no override file on
disk; the effective version is the override value, yet no override file
is marked as the contributing source (there is none to mark), contrary to
the claim's unconditional marking. -/
theorem c5_ambient_override_no_file_marked :
    loadSpec sampleDeps [(devEnginesKey (strL ("yarn")), strL ("2.1.0"))]
        (singleProjectFs (strL ("proj"))
          (.parsed ⟨none, some (.single (strL ("yarn")) (strL ("2.x")))⟩
            ⟨[], strL ("  "), false⟩)
          .absent)
        [strL ("proj")] =
      .ok (.found [strL ("proj"), pkgJsonSeg] ⟨strL ("yarn"), strL ("2.1.0")⟩ none) := by
  decide

/-- C5 witness: an override file supplying a satisfying value is used and
marked as the contributing source. -/
theorem c5_override_behaviour_witness :
    loadSpec sampleDeps []
        (singleProjectFs (strL ("proj"))
          (.parsed ⟨none, some (.single (strL ("yarn")) (strL ("2.x")))⟩
            ⟨[], strL ("  "), false⟩)
          (.file (strL ("COREPACK_DEV_ENGINES_YARN=2.1.0\n"))))
        [strL ("proj")] =
      .ok (.found [strL ("proj"), pkgJsonSeg] ⟨strL ("yarn"), strL ("2.1.0")⟩
        (if envReadFresh (.file (strL ("COREPACK_DEV_ENGINES_YARN=2.1.0\n"))) then
          some [strL ("proj"), envFileName] else none)) :=
  (c5_override_behaviour sampleDeps [] (strL ("proj"))
      ⟨none, some (.single (strL ("yarn")) (strL ("2.x")))⟩ ⟨[], strL ("  "), false⟩
      (.file (strL ("COREPACK_DEV_ENGINES_YARN=2.1.0\n")))
      (strL ("yarn")) (strL ("2.x")) (strL ("2.1.0")) ⟨strL ("yarn"), strL ("2.4.3")⟩
      rfl (by decide) (by decide) (by decide) (by decide)).2
    (by decide) (by decide) (by decide) (by decide) (by decide)

/-! Lemmas about the env-file line patch. -/

theorem patchIndex_of_nil (k A : JStr)
    (hocc : ∀ o, occursAtB ('\n' :: (k ++ [('=' : Char)])) A o = false) :
    patchIndex k A = 0 := by
  rw [patchIndex, lastSub_none_of _ _ (by simp) hocc]

theorem patchIndex_cons (k q A : JStr)
    (hpre : (k ++ [('=' : Char)]).isPrefixOf A = true)
    (hocc : ∀ o, occursAtB ('\n' :: (k ++ [('=' : Char)])) A o = false) :
    patchIndex k (q ++ '\n' :: A) = q.length + 1 := by
  rw [patchIndex]
  have h1 : occursAtB ('\n' :: (k ++ [('=' : Char)])) (q ++ '\n' :: A) q.length = true := by
    rw [occursAtB, drop_len_append q ('\n' :: A)]
    simp [List.isPrefixOf, hpre]
  have h2 : ∀ j, q.length < j →
      occursAtB ('\n' :: (k ++ [('=' : Char)])) (q ++ '\n' :: A) j = false := by
    intro j hj
    obtain ⟨o, rfl⟩ : ∃ o, j = (q.length + 1) + o := ⟨j - (q.length + 1), by omega⟩
    rw [occursAtB]
    have hd : (q ++ '\n' :: A).drop (q.length + 1 + o) = A.drop o := by
      have h3 := drop_len_append_add (q ++ ['\n']) A o
      simpa [List.append_assoc] using h3
    rw [hd]
    exact hocc o
  rw [lastSub_some_of _ _ q.length (by simp) h1 h2]

theorem patchEnvContent_spec (k v ref pre post : JStr)
    (hk : ('\n' : Char) ∉ k) (hv : ('\n' : Char) ∉ v)
    (hpre : pre = [] ∨ ∃ q, pre = q ++ [('\n' : Char)])
    (hpost : post = [] ∨ ∃ t2, post = '\n' :: t2)
    (hpost2 : findSub ('\n' :: (k ++ [('=' : Char)])) post = none) :
    patchEnvContent (pre ++ ((k ++ '=' :: v) ++ post)) k ref =
      .ok (pre ++ '\n' :: (k ++ '=' :: ref) ++ '\n' :: post, k ++ '=' :: v) := by
  have hano : ('\n' : Char) ∉ (k ++ '=' :: v) := by
    simp only [List.mem_append, List.mem_cons]
    push_neg
    exact ⟨hk, by decide, hv⟩
  have hocc : ∀ o, occursAtB ('\n' :: (k ++ [('=' : Char)])) ((k ++ '=' :: v) ++ post) o = false :=
    no_occ_clean_append _ _ _ '\n' rfl hano (findSub_none_imp _ _ hpost2)
  have hkpre : (k ++ [('=' : Char)]).isPrefixOf ((k ++ '=' :: v) ++ post) = true := by
    have hassoc : (k ++ '=' :: v) ++ post = (k ++ [('=' : Char)]) ++ (v ++ post) := by simp
    rw [hassoc]
    exact isPrefixOf_append_self _ _
  have hidx : patchIndex k (pre ++ ((k ++ '=' :: v) ++ post)) = pre.length := by
    rcases hpre with rfl | ⟨q, rfl⟩
    · simpa using patchIndex_of_nil k _ hocc
    · have hassoc : (q ++ ['\n']) ++ ((k ++ '=' :: v) ++ post) =
          q ++ '\n' :: ((k ++ '=' :: v) ++ post) := by simp
      rw [hassoc, patchIndex_cons k q _ hkpre hocc]
      simp
  have hguard : ¬ (patchIndex k (pre ++ ((k ++ '=' :: v) ++ post)) = 0 ∧
      (k ++ [('=' : Char)]).isPrefixOf (pre ++ ((k ++ '=' :: v) ++ post)) = false) := by
    rcases hpre with rfl | ⟨q, rfl⟩
    · simpa [hkpre] using fun h => h
    · rw [hidx]
      simp
  have htake : (pre ++ ((k ++ '=' :: v) ++ post)).take pre.length = pre :=
    take_len_append pre _
  have hdropA : (pre ++ ((k ++ '=' :: v) ++ post)).drop pre.length = (k ++ '=' :: v) ++ post :=
    drop_len_append pre _
  have hle : findSubFrom (strL ("\n")) (pre ++ ((k ++ '=' :: v) ++ post)) pre.length =
      (findSub ['\n'] post).map (fun o => (o + (k ++ '=' :: v).length) + pre.length) := by
    rw [findSubFrom]
    rw [show strL ("\n") = ['\n'] from rfl]
    rw [hdropA, findSub_char_append '\n' (k ++ '=' :: v) post hano]
    cases hfp : findSub ['\n'] post <;> simp [hfp]
  rw [patchEnvContent]
  rw [if_neg (by rw [hidx] at hguard ⊢; exact hguard)]
  rcases hpost with rfl | ⟨t2, rfl⟩
  · have hle2 : findSubFrom (strL ("\n")) (pre ++ ((k ++ '=' :: v) ++ [])) pre.length =
        none := by
      rw [hle]
      rfl
    rw [hidx, hle2]
    simp only [hdropA, htake]
    simp
  · have hfp : findSub ['\n'] ('\n' :: t2) = some 0 := findSub_cons_self '\n' t2
    have hle2 : findSubFrom (strL ("\n")) (pre ++ ((k ++ '=' :: v) ++ '\n' :: t2)) pre.length =
        some ((0 + (k ++ '=' :: v).length) + pre.length) := by
      rw [hle, hfp]
      rfl
    rw [hidx, hle2]
    have hlen : (0 + (k ++ '=' :: v).length) + pre.length =
        (pre ++ (k ++ '=' :: v)).length := by
      simp [List.length_append]
      omega
    have hassoc2 : pre ++ ((k ++ '=' :: v) ++ '\n' :: t2) =
        (pre ++ (k ++ '=' :: v)) ++ '\n' :: t2 := by simp
    have htake2 : (pre ++ ((k ++ '=' :: v) ++ '\n' :: t2)).take
        ((0 + (k ++ '=' :: v).length) + pre.length) = pre ++ (k ++ '=' :: v) := by
      rw [hlen, hassoc2]
      exact take_len_append _ _
    have hdrop2 : (pre ++ ((k ++ '=' :: v) ++ '\n' :: t2)).drop
        ((0 + (k ++ '=' :: v).length) + pre.length) = '\n' :: t2 := by
      rw [hlen, hassoc2]
      exact drop_len_append _ _
    simp only [htake, htake2, hdrop2]
    have hdrop3 : (pre ++ (k ++ '=' :: v)).drop pre.length = k ++ '=' :: v :=
      drop_len_append pre _
    simp [hdrop3]

/-! Lemmas about line-ending normalization. -/

theorem replaceEols_lf_id (s : List Char) (h : ('\r' : Char) ∉ s) :
    replaceEols (strL ("\n")) s = s := by
  induction s with
  | nil => rfl
  | cons c t ih =>
    have hcr : c ≠ '\r' := fun hh => h (by simp [hh])
    have ht : ('\r' : Char) ∉ t := fun hh => h (List.mem_cons_of_mem _ hh)
    cases t with
    | nil =>
      by_cases hc : c = '\n' <;> simp [replaceEols, hc] <;> rfl
    | cons d t2 =>
      by_cases hc : c = '\n'
      · have hres := ih ht
        simp [replaceEols, hc, hres]
        rfl
      · have hand : (decide (c = '\r') && decide (d = '\n')) = false := by
          simp [hcr]
        simp [replaceEols, hc, hand, ih ht]

theorem countSub_crlf_zero (s : List Char) (h : ('\r' : Char) ∉ s) :
    countSub (strL ("\r\n")) s = 0 := by
  induction s with
  | nil => rfl
  | cons c t ih =>
    have hcr : c ≠ '\r' := fun hh => h (by simp [hh])
    have hpre : (strL ("\r\n")).isPrefixOf (c :: t) = false := by
      have : strL ("\r\n") = '\r' :: ['\n'] := rfl
      rw [this]
      simp [List.isPrefixOf, Ne.symm hcr]
    simp [countSub, hpre, ih (fun hh => h (List.mem_cons_of_mem _ hh))]

theorem dominantEol_lf (s : JStr) (h : ('\r' : Char) ∉ s) : dominantEol s = strL ("\n") := by
  rw [dominantEol]
  simp [countSub_crlf_zero s h]

theorem normalizeLineEndings_lf_id (ref s : JStr) (href : ('\r' : Char) ∉ ref)
    (hs : ('\r' : Char) ∉ s) : normalizeLineEndings ref s = s := by
  rw [normalizeLineEndings, dominantEol_lf ref href, replaceEols_lf_id s hs]

/-- C2 (amended): for an override file consisting of a prefix (empty or
newline-terminated), the matching `KEY=value` line, and a suffix (empty
or starting with the line's terminating newline, containing no further
matching-key line), persisting keeps the prefix and the suffix
byte-for-byte and replaces the value, but always splices a fresh newline
before the key and after the new value: the written output is
`prefix ++ "\n" ++ KEY=ref ++ "\n" ++ suffix` (line-ending normalization
is the identity on LF-only files), so a blank line appears before the key
line — or a leading newline when the key was on the first line — and the
trailing newline is doubled, or added where the file had none. -/
theorem c2_patch_line_rewrite (k v ref pre post : JStr)
    (hk : ('\n' : Char) ∉ k) (hv : ('\n' : Char) ∉ v)
    (hpre : pre = [] ∨ ∃ q, pre = q ++ [('\n' : Char)])
    (hpost : post = [] ∨ ∃ t2, post = '\n' :: t2)
    (hpost2 : findSub ('\n' :: (k ++ [('=' : Char)])) post = none)
    (hrpre : ('\r' : Char) ∉ pre) (hrk : ('\r' : Char) ∉ k) (hrv : ('\r' : Char) ∉ v)
    (hrref : ('\r' : Char) ∉ ref) (hrpost : ('\r' : Char) ∉ post) :
    patchEnvContent (pre ++ ((k ++ '=' :: v) ++ post)) k ref =
      .ok (pre ++ '\n' :: (k ++ '=' :: ref) ++ '\n' :: post, k ++ '=' :: v) ∧
    normalizeLineEndings (pre ++ ((k ++ '=' :: v) ++ post))
        (pre ++ '\n' :: (k ++ '=' :: ref) ++ '\n' :: post) =
      pre ++ '\n' :: (k ++ '=' :: ref) ++ '\n' :: post := by
  refine ⟨patchEnvContent_spec k v ref pre post hk hv hpre hpost hpost2, ?_⟩
  apply normalizeLineEndings_lf_id
  · simp [List.mem_append, List.mem_cons, hrpre, hrk, hrv, hrpost]
  · simp [List.mem_append, List.mem_cons, hrpre, hrk, hrv, hrref, hrpost]

/-- C2 witness: an unrelated `FOO=bar` line and the file's bytes outside
the patched splice are preserved. -/
theorem c2_patch_line_rewrite_witness :
    patchEnvContent
        (strL ("FOO=bar\n") ++
          ((strL ("COREPACK_DEV_ENGINES_YARN") ++ '=' :: strL ("2.1.0")) ++ []))
        (strL ("COREPACK_DEV_ENGINES_YARN")) (strL ("2.4.3")) =
      .ok (strL ("FOO=bar\n") ++
          '\n' :: (strL ("COREPACK_DEV_ENGINES_YARN") ++ '=' :: strL ("2.4.3")) ++
          '\n' :: [],
        strL ("COREPACK_DEV_ENGINES_YARN") ++ '=' :: strL ("2.1.0")) :=
  (c2_patch_line_rewrite (strL ("COREPACK_DEV_ENGINES_YARN")) (strL ("2.1.0"))
      (strL ("2.4.3")) (strL ("FOO=bar\n")) []
      (by decide) (by decide) (Or.inr ⟨strL ("FOO=bar"), by decide⟩) (Or.inl rfl)
      (by decide) (by decide) (by decide) (by decide) (by decide) (by decide)).1

/-- C2 (counterexample): persisting over the override file
`COREPACK_DEV_ENGINES_YARN=2.1.0\n` (exactly one matching line, trailing
newline, no other content) writes
`\nCOREPACK_DEV_ENGINES_YARN=2.4.3\n\n`: a leading newline is introduced
and the trailing newline is doubled, so bytes other than the value
change, contrary to the claim. -/
theorem c2_patch_not_byte_preserving :
    setLocalPackageManager sampleDeps []
        (singleProjectFs (strL ("proj"))
          (.parsed ⟨none, some (.single (strL ("yarn")) (strL ("2.x")))⟩
            ⟨[], strL ("  "), false⟩)
          (.file (strL ("COREPACK_DEV_ENGINES_YARN=2.1.0\n"))))
        [strL ("proj")] ⟨strL ("yarn"), strL ("2.4.3")⟩ =
      .ok ⟨[strL ("proj"), envFileName],
        strL ("\nCOREPACK_DEV_ENGINES_YARN=2.4.3\n\n"),
        strL ("COREPACK_DEV_ENGINES_YARN=2.1.0")⟩ ∧
    strL ("\nCOREPACK_DEV_ENGINES_YARN=2.4.3\n\n") ≠
      strL ("COREPACK_DEV_ENGINES_YARN=2.4.3\n") := by
  decide

/-- C8 (amended): a successful persist returns, for an env-file patch,
the whole previous `KEY=value` line (key included, not just the value);
for a manifest patch, the previous legacy field value, or the sentinel
`unknown` if none existed, while the manifest is rewritten through the
document view re-rendered with its preserved indentation, a trailing
newline, and the original dominant line-ending convention. -/
theorem c8_persist_returns_previous (k v ref pre post : JStr)
    (hk : ('\n' : Char) ∉ k) (hv : ('\n' : Char) ∉ v)
    (hpre : pre = [] ∨ ∃ q, pre = q ++ [('\n' : Char)])
    (hpost : post = [] ∨ ∃ t2, post = '\n' :: t2)
    (hpost2 : findSub ('\n' :: (k ++ [('=' : Char)])) post = none)
    (deps : ExternalDeps) (procEnv : Env) (d0 : Seg) (doc doc2 : PJsonDoc)
    (pmv nmv verv : JStr) (info : Locator)
    (hsplit : pmv = nmv ++ '@' :: verv)
    (hnm : ('@' : Char) ∉ nmv) (hvne : verv ≠ [])
    (hu : deps.canParseURL verv = false) (hvv : deps.semverValid verv = true)
    (hsup : isSupportedPackageManager nmv = true)
    (hdoc : docGetPm doc = some pmv) (hdoc2 : docGetPm doc2 = none) :
    ((patchEnvContent (pre ++ ((k ++ '=' :: v) ++ post)) k ref).map (fun r => r.2) =
      .ok (k ++ '=' :: v)) ∧
    (setLocalPackageManager deps procEnv
        (singleProjectFs d0 (.parsed ⟨some pmv, none⟩ doc) .absent) [d0] info =
      .ok ⟨[d0, pkgJsonSeg],
        replaceEols (docEol doc)
          (renderPJson (docSetPm doc (info.name ++ '@' :: info.reference)) ++ [('\n' : Char)]),
        pmv⟩) ∧
    (setLocalPackageManager deps procEnv
        (singleProjectFs d0 (.parsed ⟨none, none⟩ doc2) .absent) [d0] info =
      .ok ⟨[d0, pkgJsonSeg],
        replaceEols (docEol doc2)
          (renderPJson (docSetPm doc2 (info.name ++ '@' :: info.reference)) ++ [('\n' : Char)]),
        strL ("unknown")⟩) := by
  refine ⟨?_, ?_, ?_⟩
  · rw [patchEnvContent_spec k v ref pre post hk hv hpre hpost hpost2]
    rfl
  · subst hsplit
    have hp : parsePackageJSON deps ⟨some (nmv ++ '@' :: verv), none⟩
        (localEnvOf deps procEnv .absent) = .ok (some (nmv ++ '@' :: verv)) := rfl
    have hload : loadSpec deps procEnv
        (singleProjectFs d0 (.parsed ⟨some (nmv ++ '@' :: verv), none⟩ doc) .absent) [d0] =
        .ok (.found [d0, pkgJsonSeg] ⟨nmv, verv⟩ none) := by
      rw [loadSpec_single deps procEnv d0 _ doc .absent (by simp)]
      simp only [hp, parseSpec_exact deps procEnv ⟨true⟩ nmv verv hnm hvne hu
        (fun _ => hvv) hsup]
      rfl
    rw [setLocalPackageManager]
    simp only [hload]
    have hman : (singleProjectFs d0
        (.parsed ⟨some (nmv ++ '@' :: verv), none⟩ doc) .absent).manifestAt
        (([d0, pkgJsonSeg] : Path).dropLast) =
        .parsed ⟨some (nmv ++ '@' :: verv), none⟩ doc := by
      simp [singleProjectFs]
    rw [writeManifest]
    simp only [hman, hdoc]
    rfl
  · have hp : parsePackageJSON deps ⟨none, none⟩
        (localEnvOf deps procEnv .absent) = .ok none := rfl
    have hload : loadSpec deps procEnv
        (singleProjectFs d0 (.parsed ⟨none, none⟩ doc2) .absent) [d0] =
        .ok (.noSpec [d0, pkgJsonSeg]) := by
      rw [loadSpec_single deps procEnv d0 _ doc2 .absent (by simp)]
      simp only [hp]
    rw [setLocalPackageManager]
    simp only [hload]
    have hman : (singleProjectFs d0 (.parsed ⟨none, none⟩ doc2) .absent).manifestAt
        (([d0, pkgJsonSeg] : Path).dropLast) = .parsed ⟨none, none⟩ doc2 := by
      simp [singleProjectFs]
    rw [writeManifest]
    simp only [hman, hdoc2]
    rfl

/-- C8 witness: instantiated at a legacy `yarn@2.1.0` manifest document
and an env line `COREPACK_DEV_ENGINES_YARN=2.1.0`. -/
theorem c8_persist_returns_previous_witness :
    setLocalPackageManager sampleDeps []
        (singleProjectFs (strL ("proj"))
          (.parsed ⟨some (strL ("yarn") ++ '@' :: strL ("2.1.0")), none⟩
            ⟨[.pm (strL ("yarn") ++ '@' :: strL ("2.1.0"))], strL ("  "), false⟩)
          .absent)
        [strL ("proj")] ⟨strL ("yarn"), strL ("2.4.3")⟩ =
      .ok ⟨[strL ("proj"), pkgJsonSeg],
        replaceEols (docEol ⟨[.pm (strL ("yarn") ++ '@' :: strL ("2.1.0"))], strL ("  "), false⟩)
          (renderPJson (docSetPm
            ⟨[.pm (strL ("yarn") ++ '@' :: strL ("2.1.0"))], strL ("  "), false⟩
            (strL ("yarn") ++ '@' :: strL ("2.4.3"))) ++ [('\n' : Char)]),
        strL ("yarn") ++ '@' :: strL ("2.1.0")⟩ :=
  (c8_persist_returns_previous (strL ("COREPACK_DEV_ENGINES_YARN")) (strL ("2.1.0"))
      (strL ("2.4.3")) [] []
      (by decide) (by decide) (Or.inl rfl) (Or.inl rfl) (by decide)
      sampleDeps [] (strL ("proj"))
      ⟨[.pm (strL ("yarn") ++ '@' :: strL ("2.1.0"))], strL ("  "), false⟩
      ⟨[], strL ("  "), false⟩
      (strL ("yarn") ++ '@' :: strL ("2.1.0")) (strL ("yarn")) (strL ("2.1.0"))
      ⟨strL ("yarn"), strL ("2.4.3")⟩
      rfl (by decide) (by decide) (by decide) (by decide) (by decide)
      (by decide) (by decide)).2.1

/-- C8 (counterexample): the env-file patch returns the whole previous
`KEY=value` line, not the previous override value: persisting over
`FOO=bar\nCOREPACK_DEV_ENGINES_YARN=2.1.0\n` returns
`COREPACK_DEV_ENGINES_YARN=2.1.0`, not `2.1.0`. -/
theorem c8_previous_value_is_whole_line :
    ((setLocalPackageManager sampleDeps []
        (singleProjectFs (strL ("proj"))
          (.parsed ⟨none, some (.single (strL ("yarn")) (strL ("2.x")))⟩
            ⟨[], strL ("  "), false⟩)
          (.file (strL ("FOO=bar\nCOREPACK_DEV_ENGINES_YARN=2.1.0\n"))))
        [strL ("proj")] ⟨strL ("yarn"), strL ("2.4.3")⟩).map
      (fun r => r.previousPackageManager)) =
      .ok (strL ("COREPACK_DEV_ENGINES_YARN=2.1.0")) ∧
    strL ("COREPACK_DEV_ENGINES_YARN=2.1.0") ≠ strL ("2.1.0") := by
  decide

end Corepack
